import Mathlib

/-!
Shallow embedding of the `tablemaker` repository's rendering core.

Strings are modelled as `List Char` (Go iterates strings rune by rune in
all the code relevant here, and display length is defined as rune count),
so `Str` below is the rune sequence of a Go string.

The embedded functions mirror, definition by definition:
* `tables` package (src/unnamed/part_000): `TableConfig`, `TableStyle`,
  the two built-in styles, `parseAlignment`, `cleanText`,
  `getDisplayLength`, `calculateColumnWidths`, `getColumnAlignment`,
  `formatCellContent`, `ASCIITableRenderer.Render`, `GetRenderer`,
  `getAvailableTypes`, `RegisterTableStyle`;
* `output` package (src/output/png.go): `TextType`, `TextSegment`,
  `parseLineSegments`, `classifyTextSegments`.
-/

namespace Tablemaker

/-- Rune sequence of a Go string. -/
abbrev Str := List Char

/-- Go `AlignmentType` (constants AlignLeft / AlignCenter / AlignRight). -/
inductive AlignmentType where
  | left
  | center
  | right
deriving DecidableEq

/-- Go `TableStyle`: the 11 border glyphs of a style.  Every style the
repository ships uses single-rune glyph strings, so each field is a `Char`. -/
structure TableStyle where
  TopLeft : Char
  TopRight : Char
  BottomLeft : Char
  BottomRight : Char
  Horizontal : Char
  Vertical : Char
  TopJoin : Char
  BottomJoin : Char
  LeftJoin : Char
  RightJoin : Char
  Cross : Char
deriving DecidableEq

/-- The built-in style `"single-line-full"` from `tableStyles`. -/
def singleLineFull : TableStyle :=
  ⟨'┌', '┐', '└', '┘', '─', '│', '┬', '┴', '├', '┤', '┼'⟩

/-- The built-in style `"double-line-full"` from `tableStyles`. -/
def doubleLineFull : TableStyle :=
  ⟨'╔', '╗', '╚', '╝', '═', '║', '╦', '╩', '╠', '╣', '╬'⟩

/-- Go `TableConfig` (the `PNG` field configures only fonts for image
output and none of the embedded functions reads it, so it is omitted;
Go's field `Type` is spelled `TypeName` because `Type` is a Lean keyword). -/
structure TableConfig where
  TypeName : Str
  Name : Str
  Headers : List Str
  Rows : List (List Str)
  Alignment : List Str

/-- Rune-wise lowercasing, modelling Go `strings.ToLower` on the
(ASCII) names appearing in this code. -/
def lowerStr (s : Str) : Str := s.map Char.toLower

/-- Go `parseAlignment`: case-insensitive, "centre" is a synonym of
"center", anything unrecognized is left. -/
def parseAlignment (align : Str) : AlignmentType :=
  if lowerStr align = "center".toList ∨ lowerStr align = "centre".toList then .center
  else if lowerStr align = "right".toList then .right
  else .left

/-- Go `cleanText`: `strings.ReplaceAll(text, "**", "")`, i.e. remove
non-overlapping occurrences of two consecutive stars, scanning left to
right. -/
def cleanText : Str → Str
  | '*' :: '*' :: rest => cleanText rest
  | c :: rest => c :: cleanText rest
  | [] => []

/-- Go `getDisplayLength`: rune count of the cleaned text. -/
def getDisplayLength (text : Str) : Nat := (cleanText text).length

/-- The inner loop of Go `calculateColumnWidths` over one row:
for each cell at index `i < len(colWidths)`, raise `colWidths[i]` to the
cell's display length.  Cells past the widths array are ignored. -/
def bumpRow : List Nat → List Str → List Nat
  | [], _ => []
  | ws, [] => ws
  | w :: ws, c :: cs => max w (getDisplayLength c) :: bumpRow ws cs

/-- Go `calculateColumnWidths`: empty for zero headers; otherwise seed with
header display lengths, fold every row in with `bumpRow`, then add 2. -/
def calculateColumnWidths (config : TableConfig) : List Nat :=
  if config.Headers = [] then []
  else (config.Rows.foldl bumpRow (config.Headers.map getDisplayLength)).map (· + 2)

/-- Alignment of column `i` given the `Alignment` hint list — the body of
Go `getColumnAlignment`. -/
def alignAt (al : List Str) (i : Nat) : AlignmentType :=
  match al[i]? with
  | some s => parseAlignment s
  | none => .left

/-- Go `getColumnAlignment`. -/
def getColumnAlignment (config : TableConfig) (i : Nat) : AlignmentType :=
  alignAt config.Alignment i

/-- Go `formatCellContent`: clean the content, grow the width to
`contentLen + 2` if needed, then distribute the remaining spaces by
alignment (center: floor left / rest right; right: one trailing space;
left: one leading space). -/
def formatCellContent (content : Str) (width : Nat) (alignment : AlignmentType) : Str :=
  let cleanContent := cleanText content
  let contentLen := getDisplayLength content
  let width' := if width < contentLen + 2 then contentLen + 2 else width
  let spacesNeeded := width' - contentLen
  match alignment with
  | .center =>
      List.replicate (spacesNeeded / 2) ' ' ++ cleanContent ++
        List.replicate (spacesNeeded - spacesNeeded / 2) ' '
  | .right => List.replicate (spacesNeeded - 1) ' ' ++ cleanContent ++ [' ']
  | .left => ' ' :: cleanContent ++ List.replicate (spacesNeeded - 1) ' '

/-- Interior of a border line: for each width emit the horizontal glyph
`width` times, putting the join glyph between consecutive columns
(the `if i < len(colWidths)-1` of the Go loops). -/
def borderInner (hor mid : Char) : List Nat → Str
  | [] => []
  | [w] => List.replicate w hor
  | w :: w' :: ws => List.replicate w hor ++ mid :: borderInner hor mid (w' :: ws)

/-- One full border line: left glyph, interior, right glyph. -/
def borderLine (l : Char) (mid : Char) (hor : Char) (r : Char) (ws : List Nat) : Str :=
  l :: borderInner hor mid ws ++ [r]

/-- The cell loop shared by the header row and the data rows of Go
`Render`: each cell whose index is within the widths array is formatted
and followed by the vertical glyph; cells beyond the widths array are
skipped (in the header loop the two lists always have equal length). -/
def rowCells (st : TableStyle) (al : List Str) : List Nat → List Str → Nat → Str
  | _, [], _ => []
  | [], _ :: _, _ => []
  | w :: ws, c :: cs, i =>
      formatCellContent c w (alignAt al i) ++ st.Vertical :: rowCells st al ws cs (i + 1)

/-- One rendered row line (header or data): leading vertical glyph then
the formatted cells, each followed by a vertical glyph. -/
def rowLine (st : TableStyle) (al : List Str) (ws : List Nat) (row : List Str) : Str :=
  st.Vertical :: rowCells st al ws row 0

/-- The data-row section of Go `Render`: every row's line, with a
separator line after each row except the last. -/
def dataLines (st : TableStyle) (al : List Str) (ws : List Nat) : List (List Str) → List Str
  | [] => []
  | [row] => [rowLine st al ws row]
  | row :: row' :: rows =>
      rowLine st al ws row ::
        borderLine st.LeftJoin st.Cross st.Horizontal st.RightJoin ws ::
          dataLines st al ws (row' :: rows)

/-- The sequence of lines Go `Render` writes (each is terminated by a
newline in the built string): top border, header row, header separator,
data rows interleaved with separators, bottom border. -/
def renderLines (st : TableStyle) (config : TableConfig) : List Str :=
  let ws := calculateColumnWidths config
  borderLine st.TopLeft st.TopJoin st.Horizontal st.TopRight ws ::
    rowLine st config.Alignment ws config.Headers ::
      borderLine st.LeftJoin st.Cross st.Horizontal st.RightJoin ws ::
        (dataLines st config.Alignment ws config.Rows ++
          [borderLine st.BottomLeft st.BottomJoin st.Horizontal st.BottomRight ws])

/-- Go `ASCIITableRenderer.Render`: empty output for zero rows or zero
headers, otherwise the lines above, each terminated by a newline. -/
def Render (st : TableStyle) (config : TableConfig) : Str :=
  if config.Rows = [] ∨ config.Headers = [] then []
  else ((renderLines st config).map (· ++ ['\n'])).flatten

/-- The style registry: Go's `tableStyles` map, modelled as an association
list with unique keys (`regInsert` below preserves uniqueness). -/
def tableStylesInit : List (Str × TableStyle) :=
  [("single-line-full".toList, singleLineFull), ("double-line-full".toList, doubleLineFull)]

/-- Map lookup on the association list. -/
def lookupStyle : List (Str × TableStyle) → Str → Option TableStyle
  | [], _ => none
  | (k, v) :: rest, key => if k = key then some v else lookupStyle rest key

/-- Go map assignment `m[k] = v`: overwrite the binding if the key is
present, otherwise add it. -/
def regInsert : List (Str × TableStyle) → Str → TableStyle → List (Str × TableStyle)
  | [], k, v => [(k, v)]
  | (k', v') :: rest, k, v =>
      if k' = k then (k, v) :: rest else (k', v') :: regInsert rest k v

/-- Go `getAvailableTypes`: the list of registered style names. -/
def getAvailableTypes (reg : List (Str × TableStyle)) : List Str := reg.map Prod.fst

/-- The data Go `GetRenderer`'s error carries: the requested name and the
list of known style names. -/
structure RenderError where
  requested : Str
  available : List Str
deriving DecidableEq

/-- Go `GetRenderer`: lowercase the requested name, look it up, and on a
miss fail with the requested name and the available names.  The success
value is the style wrapped by the returned `ASCIITableRenderer`. -/
def GetRenderer (reg : List (Str × TableStyle)) (tableType : Str) :
    Except RenderError TableStyle :=
  match lookupStyle reg (lowerStr tableType) with
  | some style => .ok style
  | none => .error ⟨tableType, getAvailableTypes reg⟩

/-- Go `RegisterTableStyle`: insert under the lowercased name,
overwriting any previous binding. -/
def RegisterTableStyle (reg : List (Str × TableStyle)) (name : Str) (style : TableStyle) :
    List (Str × TableStyle) :=
  regInsert reg (lowerStr name) style

/-- Go `TextType` from src/output/png.go. -/
inductive TextType where
  | ASCIIText
  | HeaderText
  | ContentText
deriving DecidableEq

/-- Go `TextSegment`: a run of text with its classification (Go's field
`Type` is spelled `Kind` because `Type` is a Lean keyword). -/
structure TextSegment where
  Text : Str
  Kind : TextType
deriving DecidableEq

/-- The fixed glyph set of `parseLineSegments`, the characters of the Go
literal "┌┐└┘├┤┬┴┼─│╔╗╚╝╠╣╦╩╬═║" (the Go code concatenates this constant
with itself before testing membership, which does not change the set of
members). -/
def asciiChars : Str :=
  ['┌', '┐', '└', '┘', '├', '┤', '┬', '┴', '┼', '─', '│',
   '╔', '╗', '╚', '╝', '╠', '╣', '╦', '╩', '╬', '═', '║']

/-- Classification of one character outside an emphasis run, as in the
loop body of Go `classifyTextSegments`. -/
def classifyChar (c : Char) : TextType :=
  if c ∈ asciiChars then .ASCIIText else .ContentText

/-- The loop of Go `classifyTextSegments` after the first character fixed
the current type: `cur` is the pending segment (always nonempty when
called from `classifyTextSegments`), `t` the current type. -/
def classifyLoop : Str → Str → TextType → List TextSegment
  | [], cur, t => if cur = [] then [] else [⟨cur, t⟩]
  | c :: cs, cur, t =>
      if classifyChar c = t then classifyLoop cs (cur ++ [c]) t
      else (if cur = [] then [] else [⟨cur, t⟩]) ++ classifyLoop cs [c] (classifyChar c)

/-- Go `classifyTextSegments`: split a star-free stretch of a line into
maximal runs of one classification.  (The Go sentinel `currentType = -1`
only makes the first character fix the type, which the `cons` case does
here.) -/
def classifyTextSegments : Str → List TextSegment
  | [] => []
  | c :: cs => classifyLoop cs [c] (classifyChar c)

/-- One attempted match of the regex pattern of two stars, then one or
more non-star characters (captured), then two stars, anchored at the
start of `l`.  Greediness never matters: the captured run cannot cross a
star, so the only viable capture is the maximal non-star run. -/
def matchBoldAt (l : Str) : Option (Str × Str) :=
  match l with
  | c1 :: c2 :: rest =>
      if c1 = '*' ∧ c2 = '*' then
        match rest.dropWhile (fun c => c ≠ '*') with
        | d1 :: d2 :: rest' =>
            if rest.takeWhile (fun c => c ≠ '*') ≠ [] ∧ d1 = '*' ∧ d2 = '*' then
              some (rest.takeWhile (fun c => c ≠ '*'), rest')
            else none
        | _ => none
      else none
  | _ => none

/-- Leftmost match of the bold pattern in `l`, as Go
`boldPattern.FindAllStringSubmatchIndex` finds it: returns the text before
the match, the captured inner text, and the text after the match. -/
def findBold : Str → Option (Str × Str × Str)
  | [] => none
  | c :: cs =>
      match matchBoldAt (c :: cs) with
      | some (inner, rest) => some ([], inner, rest)
      | none =>
          match findBold cs with
          | some (b, i, r) => some (c :: b, i, r)
          | none => none

theorem matchBoldAt_eq_some {l inner rest : Str}
    (h : matchBoldAt l = some (inner, rest)) :
    l = '*' :: '*' :: inner ++ '*' :: '*' :: rest ∧ inner ≠ [] := by
  match l with
  | [] => simp [matchBoldAt] at h
  | [c] => simp [matchBoldAt] at h
  | c1 :: c2 :: t =>
      simp only [matchBoldAt] at h
      split at h
      · rename_i hstar
        split at h
        · rename_i d1 d2 rest' hdrop
          split at h
          · rename_i hcond
            obtain ⟨hne, hd1, hd2⟩ := hcond
            obtain ⟨hc1, hc2⟩ := hstar
            subst hc1 hc2 hd1 hd2
            injection h with h'
            injection h' with hinner hrest
            subst hinner hrest
            refine ⟨?_, hne⟩
            have hsplit : t.takeWhile (fun c => c ≠ '*') ++ t.dropWhile (fun c => c ≠ '*') = t :=
              List.takeWhile_append_dropWhile _ _
            conv_lhs => rw [← hsplit]
            rw [hdrop]
            simp
          · exact absurd h (by simp)
        · exact absurd h (by simp)
      · exact absurd h (by simp)

theorem findBold_eq_some {l b i a : Str}
    (h : findBold l = some (b, i, a)) :
    l = b ++ '*' :: '*' :: i ++ '*' :: '*' :: a ∧ i ≠ [] := by
  induction l generalizing b with
  | nil => simp [findBold] at h
  | cons c cs ih =>
      simp only [findBold] at h
      split at h
      · rename_i inner rest hmatch
        injection h with h'
        injection h' with hb h'
        injection h' with hi ha
        subst hb hi ha
        exact ⟨by simp [(matchBoldAt_eq_some hmatch).1], (matchBoldAt_eq_some hmatch).2⟩
      · rename_i hmatch
        split at h
        · rename_i b' i' a' hfind
          injection h with h'
          injection h' with hb h'
          injection h' with hi ha
          subst hb hi ha
          obtain ⟨hcs, hne⟩ := ih hfind
          exact ⟨by rw [hcs]; simp, hne⟩
        · exact absurd h (by simp)

theorem findBold_length_lt {l b i a : Str}
    (h : findBold l = some (b, i, a)) : a.length < l.length := by
  obtain ⟨hl, _⟩ := findBold_eq_some h
  subst hl
  simp only [List.length_append, List.length_cons]
  omega

/-- Go `parseLineSegments`: find the leftmost bold match; classify the
text before it, emit the captured text as a `HeaderText` segment, recurse
on the text after it; with no match, classify the whole line.  (The Go
loop over all matches plus its trailing-text step unrolls to exactly this
recursion, since `FindAll` matches are the successive leftmost ones.) -/
def parseLineSegments (line : Str) : List TextSegment :=
  match hfb : findBold line with
  | none => classifyTextSegments line
  | some (before, inner, after) =>
      (if before = [] then [] else classifyTextSegments before) ++
        ⟨inner, .HeaderText⟩ :: parseLineSegments after
termination_by line.length
decreasing_by exact findBold_length_lt hfb

/-- The input line with, for each emphasis run the segmenter recognizes,
the two delimiting marker pairs removed (the content of the run is kept).
This is the spec-side description of what segmentation must preserve. -/
def removeBoldMarkers (line : Str) : Str :=
  match hfb : findBold line with
  | none => line
  | some (before, inner, after) => before ++ inner ++ removeBoldMarkers after
termination_by line.length
decreasing_by exact findBold_length_lt hfb

/-- Concatenation of the text fields of a segment list, in order. -/
def segmentsText (segs : List TextSegment) : Str :=
  (segs.map TextSegment.Text).flatten

theorem parseLineSegments_of_none {l : Str} (h : findBold l = none) :
    parseLineSegments l = classifyTextSegments l := by
  rw [parseLineSegments]
  split
  · rfl
  · rename_i b i a hfb
    rw [h] at hfb
    exact absurd hfb (by simp)

theorem parseLineSegments_of_some {l b i a : Str} (h : findBold l = some (b, i, a)) :
    parseLineSegments l =
      (if b = [] then [] else classifyTextSegments b) ++
        ⟨i, .HeaderText⟩ :: parseLineSegments a := by
  rw [parseLineSegments]
  split
  · rename_i hfb
    rw [h] at hfb
    exact absurd hfb (by simp)
  · rename_i b' i' a' hfb
    rw [h] at hfb
    injection hfb with h1
    injection h1 with hb h2
    injection h2 with hi ha
    subst hb hi ha
    rfl

theorem removeBoldMarkers_of_none {l : Str} (h : findBold l = none) :
    removeBoldMarkers l = l := by
  rw [removeBoldMarkers]
  split
  · rfl
  · rename_i b i a hfb
    rw [h] at hfb
    exact absurd hfb (by simp)

theorem removeBoldMarkers_of_some {l b i a : Str} (h : findBold l = some (b, i, a)) :
    removeBoldMarkers l = b ++ i ++ removeBoldMarkers a := by
  rw [removeBoldMarkers]
  split
  · rename_i hfb
    rw [h] at hfb
    exact absurd hfb (by simp)
  · rename_i b' i' a' hfb
    rw [h] at hfb
    injection hfb with h1
    injection h1 with hb h2
    injection h2 with hi ha
    subst hb hi ha
    rfl




/-- Spec-side formula for the raw (unpadded) width of column `i`: the
maximum of the display length of header `i` and of the display length of
every cell at column index `i` over all rows (absent cells contribute
nothing).  Stated from the spec's words, for comparison with
`calculateColumnWidths`. -/
def columnRawWidthSpec (config : TableConfig) (i : Nat) : Nat :=
  config.Rows.foldl
    (fun m row =>
      match row[i]? with
      | some c => max m (getDisplayLength c)
      | none => m)
    (match config.Headers[i]? with
      | some h => getDisplayLength h
      | none => 0)

/-- Everything rendered in column `i`: header `i` and the cell at index
`i` of every row that has one. -/
def cellsInColumn (config : TableConfig) (i : Nat) : List Str :=
  (match config.Headers[i]? with
    | some h => [h]
    | none => []) ++ config.Rows.filterMap (fun row => row[i]?)

/-- The 11 glyphs of one style. -/
def styleGlyphs (st : TableStyle) : List Char :=
  [st.TopLeft, st.TopRight, st.BottomLeft, st.BottomRight, st.Horizontal, st.Vertical,
    st.TopJoin, st.BottomJoin, st.LeftJoin, st.RightJoin, st.Cross]

/-- All glyphs used by any style of a registry. -/
def registryGlyphs (reg : List (Str × TableStyle)) : List Char :=
  (reg.map (fun e => styleGlyphs e.2)).flatten

/-- A style a caller could register at runtime, drawing its borders with
ASCII `+` and `-`. -/
def plusStyle : TableStyle :=
  ⟨'+', '+', '+', '+', '-', '+', '+', '+', '+', '+', '+'⟩

/-- The table of the spec's worked scenario: headers `["A","BB"]`, one
row `["x","yy"]`, no alignment hints. -/
def demoConfig : TableConfig :=
  ⟨"single-line-full".toList, "demo".toList, [['A'], ['B', 'B']], [[['x'], ['y', 'y']]], []⟩

/-- Two headers but a data row with a single cell. -/
def shortRowConfig : TableConfig :=
  ⟨"single-line-full".toList, [], [['A'], ['B', 'B']], [[['x']]], []⟩

/-- A header whose text contains the vertical border glyph itself. -/
def glyphCellConfig : TableConfig :=
  ⟨"single-line-full".toList, [], [['│']], [[['x']]], []⟩


theorem formatCellContent_length (content : Str) (width : Nat) (a : AlignmentType) :
    (formatCellContent content width a).length = max width ((cleanText content).length + 2) := by
  simp only [formatCellContent, getDisplayLength]
  rcases Nat.lt_or_ge width ((cleanText content).length + 2) with h | h
  · rw [if_pos h]
    cases a <;> simp [List.length_append, List.length_replicate] <;> omega
  · rw [if_neg (by omega)]
    cases a <;> simp [List.length_append, List.length_replicate] <;> omega

/-- C3: for a cell of stripped display length L formatted into width W with
W at least L+2, left alignment gives exactly one leading space and W-L-1
trailing spaces, right alignment gives W-L-1 leading spaces and one
trailing space, and center alignment gives floor((W-L)/2) leading and
ceil((W-L)/2) trailing spaces; when W < L+2 the effective width grows to
L+2 (the same output as formatting into width L+2), and in every case the
formatted string has total length max(W, L+2), so the content is never
truncated and always keeps at least one space on each side. -/
theorem C3_alignment_correct (content : Str) (W : Nat) :
    ((cleanText content).length + 2 ≤ W →
      formatCellContent content W .left =
        ' ' :: cleanText content ++
          List.replicate (W - (cleanText content).length - 1) ' ' ∧
      formatCellContent content W .right =
        List.replicate (W - (cleanText content).length - 1) ' ' ++
          cleanText content ++ [' '] ∧
      formatCellContent content W .center =
        List.replicate ((W - (cleanText content).length) / 2) ' ' ++
          cleanText content ++
            List.replicate
              ((W - (cleanText content).length) -
                (W - (cleanText content).length) / 2) ' ' ∧
      (W - (cleanText content).length) - (W - (cleanText content).length) / 2 =
        ((W - (cleanText content).length) + 1) / 2) ∧
    (W < (cleanText content).length + 2 →
      ∀ a, formatCellContent content W a =
        formatCellContent content ((cleanText content).length + 2) a) ∧
    (∀ a, (formatCellContent content W a).length =
      max W ((cleanText content).length + 2)) := by
  refine ⟨fun hW => ?_, fun hW a => ?_, fun a => formatCellContent_length content W a⟩
  · simp only [formatCellContent, getDisplayLength]
    have hif : ¬ (W < (cleanText content).length + 2) := by omega
    rw [if_neg hif]
    refine ⟨rfl, rfl, rfl, by omega⟩
  · simp only [formatCellContent, getDisplayLength]
    rw [if_pos hW, if_neg (by omega)]

/-- C3 witness: the three alignments at stripped length 2 and width 6. -/
theorem C3_alignment_correct_witness :
    formatCellContent "ab".toList 6 .left = " ab   ".toList ∧
    formatCellContent "ab".toList 6 .right = "   ab ".toList ∧
    formatCellContent "ab".toList 6 .center = "  ab  ".toList := by
  have h := (C3_alignment_correct "ab".toList 6).1 (by decide)
  refine ⟨?_, ?_, ?_⟩
  · rw [h.1]; decide
  · rw [h.2.1]; decide
  · rw [h.2.2.1]; decide

/-- C4: the spec's worked scenario.  The style table maps
"single-line-full" to the single-line style; on headers ["A","BB"] with
the single row ["x","yy"] and no alignment hints the column widths are
[3,4]; the artifact has exactly 5 newline-terminated lines, whose header
row line is "│ A │ BB │" and whose data row line is "│ x │ yy │". -/
theorem C4_demo_scenario :
    lookupStyle tableStylesInit (lowerStr "single-line-full".toList) = some singleLineFull ∧
    calculateColumnWidths demoConfig = [3, 4] ∧
    (renderLines singleLineFull demoConfig).length = 5 ∧
    (renderLines singleLineFull demoConfig)[1]? = some "│ A │ BB │".toList ∧
    (renderLines singleLineFull demoConfig)[3]? = some "│ x │ yy │".toList ∧
    Render singleLineFull demoConfig =
      "┌───┬────┐\n│ A │ BB │\n├───┼────┤\n│ x │ yy │\n└───┴────┘\n".toList := by
  decide

/-- C7: a table with zero rows or zero headers renders to the empty
string, whatever the other fields hold. -/
theorem C7_degenerate_empty (st : TableStyle) (config : TableConfig)
    (h : config.Rows = [] ∨ config.Headers = []) : Render st config = [] := by
  simp [Render, h]

/-- C7 witness: non-empty headers with zero rows give the empty artifact. -/
theorem C7_degenerate_empty_witness :
    Render singleLineFull ⟨"single-line-full".toList, [], [['A'], ['B']], [], []⟩ = [] :=
  C7_degenerate_empty singleLineFull _ (Or.inl rfl)

theorem bumpRow_length (ws : List Nat) (row : List Str) :
    (bumpRow ws row).length = ws.length := by
  induction ws generalizing row with
  | nil => simp [bumpRow]
  | cons w ws ih => cases row <;> simp [bumpRow, ih]

theorem foldl_bumpRow_length (rows : List (List Str)) (ws : List Nat) :
    (rows.foldl bumpRow ws).length = ws.length := by
  induction rows generalizing ws with
  | nil => rfl
  | cons r rs ih => rw [List.foldl_cons, ih, bumpRow_length]

theorem calculateColumnWidths_length (config : TableConfig) :
    (calculateColumnWidths config).length = config.Headers.length := by
  unfold calculateColumnWidths
  split
  · rename_i h
    simp [h]
  · simp [foldl_bumpRow_length]

theorem bumpRow_getElem? (ws : List Nat) (row : List Str) (i : Nat) :
    (bumpRow ws row)[i]? =
      match ws[i]?, row[i]? with
      | some w, some c => some (max w (getDisplayLength c))
      | some w, none => some w
      | none, _ => none := by
  induction ws generalizing row i with
  | nil => simp [bumpRow]
  | cons w ws ih =>
      cases row with
      | nil =>
          cases i with
          | zero => simp [bumpRow]
          | succ i => cases hw : ws[i]? <;> simp [bumpRow, hw]
      | cons c cs =>
          cases i with
          | zero => simp [bumpRow]
          | succ i => simpa [bumpRow] using ih cs i

theorem foldl_bumpRow_getElem? (rows : List (List Str)) (i : Nat) (ws : List Nat) (w : Nat)
    (h : ws[i]? = some w) :
    (rows.foldl bumpRow ws)[i]? =
      some (rows.foldl
        (fun m row =>
          match row[i]? with
          | some c => max m (getDisplayLength c)
          | none => m) w) := by
  induction rows generalizing ws w with
  | nil => simpa using h
  | cons r rs ih =>
      rw [List.foldl_cons, List.foldl_cons]
      have hb : (bumpRow ws r)[i]? =
          some (match r[i]? with
            | some c => max w (getDisplayLength c)
            | none => w) := by
        rw [bumpRow_getElem?, h]
        cases r[i]? <;> rfl
      exact ih _ _ hb

theorem calculateColumnWidths_getElem? (config : TableConfig) (i : Nat)
    (hi : i < config.Headers.length) :
    (calculateColumnWidths config)[i]? = some (columnRawWidthSpec config i + 2) := by
  have hh : config.Headers[i]? = some (config.Headers[i]) := List.getElem?_eq_getElem hi
  have hinit : (config.Headers.map getDisplayLength)[i]? =
      some (getDisplayLength (config.Headers[i])) := by
    rw [List.getElem?_map, hh]
    rfl
  unfold calculateColumnWidths columnRawWidthSpec
  rw [if_neg (by intro he; rw [he] at hi; simp at hi)]
  rw [List.getElem?_map, foldl_bumpRow_getElem? config.Rows i _ _ hinit, hh]
  rfl

theorem bumpRow_take (ws : List Nat) (row : List Str) :
    bumpRow ws (row.take ws.length) = bumpRow ws row := by
  induction ws generalizing row with
  | nil => simp [bumpRow]
  | cons w ws ih => cases row <;> simp [bumpRow, ih]

theorem foldl_bumpRow_take (N : Nat) (rows : List (List Str)) (ws : List Nat)
    (h : ws.length = N) :
    (rows.map (List.take N)).foldl bumpRow ws = rows.foldl bumpRow ws := by
  induction rows generalizing ws with
  | nil => rfl
  | cons r rs ih =>
      rw [List.map_cons, List.foldl_cons, List.foldl_cons]
      have h2 : List.take N r = List.take ws.length r := by rw [h]
      rw [h2, bumpRow_take]
      exact ih _ (by rw [bumpRow_length, h])

theorem calculateColumnWidths_truncate (config : TableConfig) :
    calculateColumnWidths
        { config with Rows := config.Rows.map (List.take config.Headers.length) } =
      calculateColumnWidths config := by
  have hH : ({ config with Rows := config.Rows.map (List.take config.Headers.length) } :
      TableConfig).Headers = config.Headers := rfl
  have hR : ({ config with Rows := config.Rows.map (List.take config.Headers.length) } :
      TableConfig).Rows = config.Rows.map (List.take config.Headers.length) := rfl
  by_cases h : config.Headers = []
  · simp only [calculateColumnWidths, hH, hR]
    rw [if_pos h, if_pos h]
  · simp only [calculateColumnWidths, hH, hR]
    rw [if_neg h, if_neg h,
      foldl_bumpRow_take config.Headers.length _ _ (by simp)]

/-- C2: the column-width array has one entry per header (empty for zero
headers), entry `i` is 2 plus the maximum of the display length of header
`i` and of every cell at column index `i` over all rows, and dropping the
cells past the header range from every row leaves every width unchanged. -/
theorem C2_column_widths (config : TableConfig) :
    (calculateColumnWidths config).length = config.Headers.length ∧
    (∀ i, i < config.Headers.length →
      (calculateColumnWidths config)[i]? = some (columnRawWidthSpec config i + 2)) ∧
    calculateColumnWidths
        { config with Rows := config.Rows.map (List.take config.Headers.length) } =
      calculateColumnWidths config :=
  ⟨calculateColumnWidths_length config,
    fun i hi => calculateColumnWidths_getElem? config i hi,
    calculateColumnWidths_truncate config⟩

/-- C2 witness: on the worked demo table, column 0 has width
max(len "A", len "x") + 2 = 3. -/
theorem C2_column_widths_witness :
    (calculateColumnWidths demoConfig).length = demoConfig.Headers.length ∧
    (calculateColumnWidths demoConfig)[0]? = some (columnRawWidthSpec demoConfig 0 + 2) ∧
    columnRawWidthSpec demoConfig 0 + 2 = 3 :=
  ⟨(C2_column_widths demoConfig).1,
    (C2_column_widths demoConfig).2.1 0 (by decide), by decide⟩

theorem le_foldl_colMax (rows : List (List Str)) (i : Nat) (m : Nat) :
    m ≤ rows.foldl
      (fun m row =>
        match row[i]? with
        | some c => max m (getDisplayLength c)
        | none => m) m := by
  induction rows generalizing m with
  | nil => exact Nat.le_refl m
  | cons r rs ih =>
      rw [List.foldl_cons]
      refine Nat.le_trans ?_ (ih _)
      cases r[i]? with
      | none => exact Nat.le_refl m
      | some c => exact Nat.le_max_left m _

theorem le_foldl_colMax_of_le (rows : List (List Str)) (i : Nat) (m m' : Nat) (h : m' ≤ m) :
    m' ≤ rows.foldl
      (fun m row =>
        match row[i]? with
        | some c => max m (getDisplayLength c)
        | none => m) m :=
  Nat.le_trans h (le_foldl_colMax rows i m)

theorem mem_le_foldl_colMax (rows : List (List Str)) (i : Nat)
    (row : List Str) (c : Str) (hc : row[i]? = some c) :
    ∀ m, row ∈ rows → getDisplayLength c ≤ rows.foldl
      (fun m row =>
        match row[i]? with
        | some c => max m (getDisplayLength c)
        | none => m) m := by
  induction rows with
  | nil =>
      intro m hrow
      cases hrow
  | cons r rs ih =>
      intro m hrow
      rw [List.foldl_cons]
      rcases List.mem_cons.mp hrow with heq | hmem
      · subst heq
        rw [hc]
        exact le_foldl_colMax_of_le rs i _ _ (Nat.le_max_right m _)
      · exact ih _ hmem

theorem mem_cellsInColumn_le (config : TableConfig) (i : Nat) (c : Str)
    (hc : c ∈ cellsInColumn config i) :
    getDisplayLength c ≤ columnRawWidthSpec config i := by
  unfold cellsInColumn at hc
  unfold columnRawWidthSpec
  rcases List.mem_append.mp hc with h1 | h2
  · cases hh : config.Headers[i]? with
    | none =>
        rw [hh] at h1
        simp at h1
    | some h =>
        rw [hh] at h1
        have hch : c = h := by simpa using h1
        subst hch
        exact le_foldl_colMax config.Rows i _
  · obtain ⟨row, hrow, hcell⟩ := List.mem_filterMap.mp h2
    exact mem_le_foldl_colMax config.Rows i row c hcell _ hrow

/-- C5: every cell rendered in column i (header i or any row's cell at
index i) formats to a string whose length is exactly the computed width
of column i, so all cells of a column share one width and the width is
never re-derived from the cell alone. -/
theorem C5_width_invariant (config : TableConfig) (i : Nat) (c : Str) (w : Nat)
    (hi : i < config.Headers.length) (hc : c ∈ cellsInColumn config i)
    (hw : (calculateColumnWidths config)[i]? = some w) :
    ∀ a : AlignmentType, (formatCellContent c w a).length = w := by
  intro a
  rw [calculateColumnWidths_getElem? config i hi] at hw
  injection hw with hw
  subst hw
  rw [formatCellContent_length]
  have hle := mem_cellsInColumn_le config i c hc
  unfold getDisplayLength at hle
  omega

/-- C5 witness: the data cell "x" of the demo table formats to exactly
the width of column 0. -/
theorem C5_width_invariant_witness :
    (formatCellContent ['x'] 3 .left).length = 3 :=
  C5_width_invariant demoConfig 0 ['x'] 3 (by decide) (by decide) (by decide) .left

theorem formatCellContent_count (V : Char) (content : Str) (w : Nat) (a : AlignmentType)
    (hV : V ≠ ' ') (hc : V ∉ cleanText content) :
    (formatCellContent content w a).count V = 0 := by
  rw [List.count_eq_zero]
  intro hmem
  cases a <;>
    simp only [formatCellContent, List.mem_append, List.mem_replicate, List.mem_cons,
      List.mem_singleton] at hmem <;>
    tauto

theorem rowCells_count (st : TableStyle) (al : List Str) (hV : st.Vertical ≠ ' ') :
    ∀ (ws : List Nat) (row : List Str) (i : Nat),
      (∀ c ∈ row, st.Vertical ∉ cleanText c) →
      (rowCells st al ws row i).count st.Vertical = min ws.length row.length := by
  intro ws
  induction ws with
  | nil =>
      intro row i hrow
      cases row <;> simp [rowCells]
  | cons w ws ih =>
      intro row i hrow
      cases row with
      | nil => simp [rowCells]
      | cons c cs =>
          have hfmt := formatCellContent_count st.Vertical c w (alignAt al i) hV
            (hrow c (List.mem_cons_self c cs))
          have hrec := ih cs (i + 1) (fun x hx => hrow x (List.mem_cons_of_mem c hx))
          simp only [rowCells, List.count_append, List.count_cons_self, hfmt, hrec,
            List.length_cons]
          omega

theorem rowLine_count (st : TableStyle) (al : List Str) (ws : List Nat) (row : List Str)
    (hV : st.Vertical ≠ ' ') (hrow : ∀ c ∈ row, st.Vertical ∉ cleanText c) :
    (rowLine st al ws row).count st.Vertical = min ws.length row.length + 1 := by
  simp only [rowLine, List.count_cons_self, rowCells_count st al hV ws row 0 hrow]

theorem rowLine_mem_dataLines (st : TableStyle) (al : List Str) (ws : List Nat) :
    ∀ (rows : List (List Str)) (row : List Str), row ∈ rows →
      rowLine st al ws row ∈ dataLines st al ws rows := by
  intro rows
  induction rows with
  | nil =>
      intro row h
      cases h
  | cons r rs ih =>
      intro row h
      rcases List.mem_cons.mp h with heq | hmem
      · subst heq
        cases rs <;> simp [dataLines]
      · cases rs with
        | nil => cases hmem
        | cons r' rs' =>
            have := ih row hmem
            simp only [dataLines, List.mem_cons]
            tauto

/-- C1 (amended): in a rendered table whose style has a non-space vertical
glyph and whose headers and cells do not themselves contain that glyph
after emphasis stripping, the header row line (line 1 of the artifact)
contains exactly N+1 occurrences of the vertical glyph (N headers), and
the line of a data row with k cells contains exactly min(k, N)+1
occurrences — so rows with at least as many cells as headers give N+1,
but rows with fewer cells give fewer delimiters. -/
theorem C1_row_delimiters (st : TableStyle) (config : TableConfig)
    (hV : st.Vertical ≠ ' ')
    (hH : ∀ h ∈ config.Headers, st.Vertical ∉ cleanText h)
    (hR : ∀ row ∈ config.Rows, ∀ c ∈ row, st.Vertical ∉ cleanText c) :
    (renderLines st config)[1]? =
        some (rowLine st config.Alignment (calculateColumnWidths config) config.Headers) ∧
    (rowLine st config.Alignment (calculateColumnWidths config) config.Headers).count
        st.Vertical = config.Headers.length + 1 ∧
    ∀ row ∈ config.Rows,
      rowLine st config.Alignment (calculateColumnWidths config) row ∈ renderLines st config ∧
      (rowLine st config.Alignment (calculateColumnWidths config) row).count st.Vertical
        = min row.length config.Headers.length + 1 := by
  refine ⟨rfl, ?_, fun row hrow => ⟨?_, ?_⟩⟩
  · rw [rowLine_count st config.Alignment _ _ hV hH, calculateColumnWidths_length]
    simp
  · simp only [renderLines, List.mem_cons, List.mem_append]
    have := rowLine_mem_dataLines st config.Alignment (calculateColumnWidths config)
      config.Rows row hrow
    tauto
  · rw [rowLine_count st config.Alignment _ _ hV (hR row hrow), calculateColumnWidths_length]
    rw [Nat.min_comm]

/-- C1 counterexample: with two headers, the line of a one-cell data row
holds 2 vertical glyphs, not 3; and with one header whose text itself is
the vertical glyph, the header row line holds 3 occurrences, not 2.  Both
refute the claim that every row line has exactly N+1 occurrences. -/
theorem C1_row_delimiters_counterexample :
    shortRowConfig.Headers.length = 2 ∧
    (renderLines singleLineFull shortRowConfig)[3]? = some "│ x │".toList ∧
    "│ x │".toList.count '│' = 2 ∧ (2 : Nat) ≠ 2 + 1 ∧
    glyphCellConfig.Headers.length = 1 ∧
    (renderLines singleLineFull glyphCellConfig)[1]? = some "│ │ │".toList ∧
    "│ │ │".toList.count '│' = 3 ∧ (3 : Nat) ≠ 1 + 1 := by
  decide

/-- C1 witness: on the two-header table with the single one-cell row
["x"], the header line has 3 = 2+1 delimiters and the data row line has
min(1,2)+1 = 2. -/
theorem C1_row_delimiters_witness :
    (rowLine singleLineFull shortRowConfig.Alignment
        (calculateColumnWidths shortRowConfig) shortRowConfig.Headers).count '│' = 3 ∧
    (rowLine singleLineFull shortRowConfig.Alignment
        (calculateColumnWidths shortRowConfig) [['x']]).count '│' = 2 := by
  have h := C1_row_delimiters singleLineFull shortRowConfig (by decide) (by decide) (by decide)
  exact ⟨h.2.1, (h.2.2 [['x']] (by decide)).2⟩

theorem lookupStyle_isSome_iff (reg : List (Str × TableStyle)) (key : Str) :
    (∃ st, lookupStyle reg key = some st) ↔ key ∈ getAvailableTypes reg := by
  induction reg with
  | nil => simp [lookupStyle, getAvailableTypes]
  | cons e rest ih =>
      obtain ⟨k, v⟩ := e
      simp only [lookupStyle, getAvailableTypes, List.map_cons, List.mem_cons] at ih ⊢
      by_cases hk : k = key
      · subst hk
        rw [if_pos rfl]
        exact ⟨fun _ => Or.inl rfl, fun _ => ⟨v, rfl⟩⟩
      · rw [if_neg hk, ih]
        have hne : ¬ key = k := fun he => hk he.symm
        tauto

theorem lookupStyle_eq_none_iff (reg : List (Str × TableStyle)) (key : Str) :
    lookupStyle reg key = none ↔ key ∉ getAvailableTypes reg := by
  constructor
  · intro h hk
    obtain ⟨st, hst⟩ := (lookupStyle_isSome_iff reg key).mpr hk
    rw [h] at hst
    cases hst
  · intro hk
    cases h : lookupStyle reg key with
    | none => rfl
    | some v => exact absurd ((lookupStyle_isSome_iff reg key).mp ⟨v, h⟩) hk

theorem mem_getAvailableTypes_regInsert (reg : List (Str × TableStyle)) (k key : Str)
    (v : TableStyle) (h : key ∈ getAvailableTypes reg) :
    key ∈ getAvailableTypes (regInsert reg k v) := by
  induction reg with
  | nil => simp [getAvailableTypes] at h
  | cons e rest ih =>
      obtain ⟨k', v'⟩ := e
      simp only [getAvailableTypes, List.map_cons, List.mem_cons] at h
      simp only [regInsert]
      by_cases hk : k' = k
      · rw [if_pos hk]
        simp only [getAvailableTypes, List.map_cons, List.mem_cons]
        rcases h with h | h
        · left
          rw [h, hk]
        · right
          exact h
      · rw [if_neg hk]
        simp only [getAvailableTypes, List.map_cons, List.mem_cons]
        rcases h with h | h
        · left
          exact h
        · right
          exact ih h

/-- C8: style lookup lowercases the requested name and succeeds exactly
for names in the registry; a miss yields an error carrying the requested
name and the list of known names; two names with equal lowercasing
resolve alike; and registration never removes the two built-in names. -/
theorem C8_style_lookup (reg : List (Str × TableStyle)) (name : Str)
    (hs : "single-line-full".toList ∈ getAvailableTypes reg)
    (hd : "double-line-full".toList ∈ getAvailableTypes reg) :
    ((∃ st, GetRenderer reg name = .ok st) ↔ lowerStr name ∈ getAvailableTypes reg) ∧
    (lowerStr name ∉ getAvailableTypes reg →
      GetRenderer reg name = .error ⟨name, getAvailableTypes reg⟩) ∧
    (∀ name', lowerStr name' = lowerStr name →
      ∀ st, (GetRenderer reg name = .ok st ↔ GetRenderer reg name' = .ok st)) ∧
    (∀ nm v, "single-line-full".toList ∈ getAvailableTypes (RegisterTableStyle reg nm v) ∧
      "double-line-full".toList ∈ getAvailableTypes (RegisterTableStyle reg nm v)) := by
  refine ⟨?_, ?_, ?_, ?_⟩
  · rw [← lookupStyle_isSome_iff]
    unfold GetRenderer
    cases h : lookupStyle reg (lowerStr name) <;> simp [h]
  · intro hno
    unfold GetRenderer
    rw [(lookupStyle_eq_none_iff reg (lowerStr name)).mpr hno]
  · intro name' he st
    unfold GetRenderer
    rw [he]
    cases h : lookupStyle reg (lowerStr name) <;> simp [h]
  · intro nm v
    exact ⟨mem_getAvailableTypes_regInsert reg (lowerStr nm) _ v hs,
      mem_getAvailableTypes_regInsert reg (lowerStr nm) _ v hd⟩

/-- C8 witness: on the built-in registry, the mixed-case name
"Single-Line-Full" resolves, and "nope" fails with the requested name and
the two built-in names. -/
theorem C8_style_lookup_witness :
    (∃ st, GetRenderer tableStylesInit "Single-Line-Full".toList = .ok st) ∧
    GetRenderer tableStylesInit "nope".toList =
      .error ⟨"nope".toList, ["single-line-full".toList, "double-line-full".toList]⟩ := by
  have h1 := C8_style_lookup tableStylesInit "Single-Line-Full".toList (by decide) (by decide)
  have h2 := C8_style_lookup tableStylesInit "nope".toList (by decide) (by decide)
  exact ⟨h1.1.mpr (by decide), h2.2.1 (by decide)⟩

theorem bumpRow_append (ws : List Nat) (row extra : List Str) (h : ws.length ≤ row.length) :
    bumpRow ws (row ++ extra) = bumpRow ws row := by
  induction ws generalizing row with
  | nil => cases row <;> cases extra <;> simp [bumpRow]
  | cons w ws ih =>
      cases row with
      | nil => simp at h
      | cons c cs =>
          simp only [List.cons_append, bumpRow, List.append_eq]
          rw [ih cs (by simp only [List.length_cons] at h; omega)]

theorem rowCells_append (st : TableStyle) (al : List Str) :
    ∀ (ws : List Nat) (row extra : List Str) (i : Nat), ws.length ≤ row.length →
      rowCells st al ws (row ++ extra) i = rowCells st al ws row i := by
  intro ws
  induction ws with
  | nil =>
      intro row extra i h
      cases row <;> cases extra <;> simp [rowCells]
  | cons w ws ih =>
      intro row extra i h
      cases row with
      | nil => simp at h
      | cons c cs =>
          simp only [List.cons_append, rowCells, List.append_eq]
          rw [ih cs extra (i + 1) (by simp only [List.length_cons] at h; omega)]

theorem foldl_bumpRow_set (extra : List Str) :
    ∀ (rows : List (List Str)) (j : Nat) (ws : List Nat),
      ws.length ≤ (rows.getD j []).length →
      (rows.set j (rows.getD j [] ++ extra)).foldl bumpRow ws = rows.foldl bumpRow ws := by
  intro rows
  induction rows with
  | nil =>
      intro j ws h
      rfl
  | cons r rs ih =>
      intro j ws h
      cases j with
      | zero =>
          rw [List.getD_cons_zero] at h
          rw [List.getD_cons_zero, List.set_cons_zero, List.foldl_cons, List.foldl_cons,
            bumpRow_append ws r extra h]
      | succ j =>
          rw [List.getD_cons_succ] at h
          rw [List.getD_cons_succ, List.set_cons_succ, List.foldl_cons, List.foldl_cons]
          exact ih j (bumpRow ws r) (by rw [bumpRow_length]; exact h)

theorem calculateColumnWidths_set (config : TableConfig) (j : Nat) (extra : List Str)
    (h : config.Headers.length ≤ (config.Rows.getD j []).length) :
    calculateColumnWidths
        { config with Rows := config.Rows.set j (config.Rows.getD j [] ++ extra) } =
      calculateColumnWidths config := by
  have hH : ({ config with Rows := config.Rows.set j (config.Rows.getD j [] ++ extra) } :
      TableConfig).Headers = config.Headers := rfl
  have hR : ({ config with Rows := config.Rows.set j (config.Rows.getD j [] ++ extra) } :
      TableConfig).Rows = config.Rows.set j (config.Rows.getD j [] ++ extra) := rfl
  by_cases hnil : config.Headers = []
  · simp only [calculateColumnWidths, hH, hR]
    rw [if_pos hnil, if_pos hnil]
  · simp only [calculateColumnWidths, hH, hR]
    rw [if_neg hnil, if_neg hnil,
      foldl_bumpRow_set extra config.Rows j _ (by rw [List.length_map]; exact h)]

theorem dataLines_cons_of_ne_nil (st : TableStyle) (al : List Str) (ws : List Nat)
    (r : List Str) (L : List (List Str)) (h : L ≠ []) :
    dataLines st al ws (r :: L) = rowLine st al ws r ::
      borderLine st.LeftJoin st.Cross st.Horizontal st.RightJoin ws :: dataLines st al ws L := by
  cases L with
  | nil => cases h rfl
  | cons a as => rfl

theorem dataLines_set (st : TableStyle) (al : List Str) (ws : List Nat) (extra : List Str) :
    ∀ (rows : List (List Str)) (j : Nat),
      ws.length ≤ (rows.getD j []).length →
      dataLines st al ws (rows.set j (rows.getD j [] ++ extra)) = dataLines st al ws rows := by
  intro rows
  induction rows with
  | nil =>
      intro j h
      rfl
  | cons r rs ih =>
      intro j h
      cases j with
      | zero =>
          rw [List.getD_cons_zero] at h
          rw [List.getD_cons_zero, List.set_cons_zero]
          have hr : rowLine st al ws (r ++ extra) = rowLine st al ws r := by
            unfold rowLine
            rw [rowCells_append st al ws r extra 0 h]
          cases rs with
          | nil => simp [dataLines, hr]
          | cons r2 rs2 => simp [dataLines, hr]
      | succ j =>
          rw [List.getD_cons_succ] at h
          rw [List.getD_cons_succ, List.set_cons_succ]
          cases rs with
          | nil => rfl
          | cons r2 rs2 =>
              have hne : (r2 :: rs2).set j ((r2 :: rs2).getD j [] ++ extra) ≠ [] := by
                intro hnil
                have hlen := congrArg List.length hnil
                simp at hlen
              rw [dataLines_cons_of_ne_nil st al ws r _ hne,
                dataLines_cons_of_ne_nil st al ws r _ (by simp), ih j h]

theorem renderLines_set (st : TableStyle) (config : TableConfig) (j : Nat) (extra : List Str)
    (h : config.Headers.length ≤ (config.Rows.getD j []).length) :
    renderLines st { config with Rows := config.Rows.set j (config.Rows.getD j [] ++ extra) } =
      renderLines st config := by
  have hH : ({ config with Rows := config.Rows.set j (config.Rows.getD j [] ++ extra) } :
      TableConfig).Headers = config.Headers := rfl
  have hR : ({ config with Rows := config.Rows.set j (config.Rows.getD j [] ++ extra) } :
      TableConfig).Rows = config.Rows.set j (config.Rows.getD j [] ++ extra) := rfl
  have hA : ({ config with Rows := config.Rows.set j (config.Rows.getD j [] ++ extra) } :
      TableConfig).Alignment = config.Alignment := rfl
  simp only [renderLines, hH, hR, hA, calculateColumnWidths_set config j extra h]
  rw [dataLines_set st config.Alignment _ extra config.Rows j
    (by rw [calculateColumnWidths_length]; exact h)]

/-- C9: appending extra cells past the header count to a row changes
neither the computed column widths nor the rendered artifact — the extra
cells are silently ignored. -/
theorem C9_extra_cells_ignored (st : TableStyle) (config : TableConfig) (j : Nat)
    (extra : List Str)
    (h : config.Headers.length ≤ (config.Rows.getD j []).length) :
    calculateColumnWidths
        { config with Rows := config.Rows.set j (config.Rows.getD j [] ++ extra) } =
      calculateColumnWidths config ∧
    Render st { config with Rows := config.Rows.set j (config.Rows.getD j [] ++ extra) } =
      Render st config := by
  refine ⟨calculateColumnWidths_set config j extra h, ?_⟩
  have hH : ({ config with Rows := config.Rows.set j (config.Rows.getD j [] ++ extra) } :
      TableConfig).Headers = config.Headers := rfl
  have hR : ({ config with Rows := config.Rows.set j (config.Rows.getD j [] ++ extra) } :
      TableConfig).Rows = config.Rows.set j (config.Rows.getD j [] ++ extra) := rfl
  have hiff : config.Rows.set j (config.Rows.getD j [] ++ extra) = [] ↔ config.Rows = [] := by
    cases config.Rows with
    | nil => simp
    | cons r rs => cases j <;> simp
  simp only [Render, hH, hR]
  by_cases hcond : config.Rows = [] ∨ config.Headers = []
  · rw [if_pos ?hc1, if_pos hcond]
    case hc1 =>
      rcases hcond with hc | hc
      · exact Or.inl (hiff.mpr hc)
      · exact Or.inr hc
  · rw [if_neg ?hc2, if_neg hcond]
    · rw [renderLines_set st config j extra h]
    case hc2 =>
      intro hcon
      rcases hcon with hc | hc
      · exact hcond (Or.inl (hiff.mp hc))
      · exact hcond (Or.inr hc)

/-- C9 witness: appending the cell "z" to the full-width row of the demo
table leaves both the widths and the artifact unchanged. -/
theorem C9_extra_cells_ignored_witness :
    calculateColumnWidths
        { demoConfig with
          Rows := demoConfig.Rows.set 0 (demoConfig.Rows.getD 0 [] ++ [['z']]) } =
      calculateColumnWidths demoConfig ∧
    Render singleLineFull
        { demoConfig with
          Rows := demoConfig.Rows.set 0 (demoConfig.Rows.getD 0 [] ++ [['z']]) } =
      Render singleLineFull demoConfig :=
  C9_extra_cells_ignored singleLineFull demoConfig 0 [['z']] (by decide)

theorem classifyChar_ne_header (c : Char) : classifyChar c ≠ .HeaderText := by
  unfold classifyChar
  split <;> decide

theorem mem_asciiChars_iff_builtin (c : Char) :
    c ∈ asciiChars ↔ c ∈ styleGlyphs singleLineFull ∨ c ∈ styleGlyphs doubleLineFull := by
  simp only [asciiChars, styleGlyphs, singleLineFull, doubleLineFull, List.mem_cons,
    List.not_mem_nil, or_false]
  tauto

theorem classifyLoop_kind_of_mem :
    ∀ (text cur : Str) (t : TextType), (∀ c ∈ cur, classifyChar c = t) →
      ∀ seg ∈ classifyLoop text cur t, ∀ c ∈ seg.Text, classifyChar c = seg.Kind := by
  intro text
  induction text with
  | nil =>
      intro cur t hcur seg hseg c hc
      simp only [classifyLoop] at hseg
      split at hseg
      · cases hseg
      · have hs : seg = ⟨cur, t⟩ := by simpa using hseg
        subst hs
        exact hcur c hc
  | cons x xs ih =>
      intro cur t hcur seg hseg c hc
      simp only [classifyLoop] at hseg
      split at hseg
      · rename_i hx
        refine ih (cur ++ [x]) t ?_ seg hseg c hc
        intro d hd
        rcases List.mem_append.mp hd with h | h
        · exact hcur d h
        · rw [List.mem_singleton.mp h, hx]
      · rcases List.mem_append.mp hseg with h1 | h2
        · split at h1
          · cases h1
          · have hs : seg = ⟨cur, t⟩ := by simpa using h1
            subst hs
            exact hcur c hc
        · refine ih [x] (classifyChar x) ?_ seg h2 c hc
          intro d hd
          rw [List.mem_singleton.mp hd]

/-- C6 (amended): in every line, a character outside an emphasis run is
classified as structural exactly when it is one of the glyphs of the two
built-in styles; the glyph set is a fixed constant, so styles registered
at runtime do not extend it. -/
theorem C6_structural_classification (l : Str) (seg : TextSegment) (c : Char)
    (hseg : seg ∈ classifyTextSegments l) (hc : c ∈ seg.Text) :
    seg.Kind = .ASCIIText ↔
      (c ∈ styleGlyphs singleLineFull ∨ c ∈ styleGlyphs doubleLineFull) := by
  have hk : classifyChar c = seg.Kind := by
    cases l with
    | nil => simp [classifyTextSegments] at hseg
    | cons x xs =>
        refine classifyLoop_kind_of_mem xs [x] (classifyChar x) ?_ seg hseg c hc
        intro d hd
        rw [List.mem_singleton.mp hd]
  rw [← mem_asciiChars_iff_builtin, ← hk]
  unfold classifyChar
  split
  · rename_i h
    exact iff_of_true rfl h
  · rename_i h
    exact iff_of_false (by decide) h

/-- C6 counterexample: register a style drawing its borders with the `+`
glyph; `+` is then a glyph of a registered style, yet the segmenter still
classifies it as plain content, refuting the claim that the structural
set covers every registered style. -/
theorem C6_structural_classification_counterexample :
    '+' ∈ registryGlyphs (RegisterTableStyle tableStylesInit "plus-line-full".toList plusStyle) ∧
    parseLineSegments ['+'] = [⟨['+'], .ContentText⟩] ∧
    TextType.ContentText ≠ TextType.ASCIIText := by
  refine ⟨by decide, ?_, by decide⟩
  rw [parseLineSegments_of_none (by decide)]
  decide

/-- C6 witness: in the line "│a", the glyph `│` lands in a structural
segment and `a` in a content segment, matching membership in the built-in
glyph set. -/
theorem C6_structural_classification_witness :
    ((⟨['│'], .ASCIIText⟩ : TextSegment).Kind = .ASCIIText ↔
      ('│' ∈ styleGlyphs singleLineFull ∨ '│' ∈ styleGlyphs doubleLineFull)) ∧
    ((⟨['a'], .ContentText⟩ : TextSegment).Kind = .ASCIIText ↔
      ('a' ∈ styleGlyphs singleLineFull ∨ 'a' ∈ styleGlyphs doubleLineFull)) :=
  ⟨C6_structural_classification ['│', 'a'] ⟨['│'], .ASCIIText⟩ '│' (by decide) (by decide),
    C6_structural_classification ['│', 'a'] ⟨['a'], .ContentText⟩ 'a' (by decide) (by decide)⟩

theorem segmentsText_append (a b : List TextSegment) :
    segmentsText (a ++ b) = segmentsText a ++ segmentsText b := by
  simp [segmentsText]

theorem segmentsText_cons (s : TextSegment) (b : List TextSegment) :
    segmentsText (s :: b) = s.Text ++ segmentsText b := by
  simp [segmentsText]

theorem classifyLoop_text : ∀ (text cur : Str) (t : TextType),
    segmentsText (classifyLoop text cur t) = cur ++ text := by
  intro text
  induction text with
  | nil =>
      intro cur t
      simp only [classifyLoop]
      split
      · rename_i h
        simp [segmentsText, h]
      · simp [segmentsText]
  | cons x xs ih =>
      intro cur t
      simp only [classifyLoop]
      split
      · rw [ih]
        simp
      · rw [segmentsText_append, ih]
        split
        · rename_i h
          simp [segmentsText, h]
        · simp [segmentsText]

theorem classifyTextSegments_text (l : Str) :
    segmentsText (classifyTextSegments l) = l := by
  cases l with
  | nil => rfl
  | cons x xs =>
      rw [classifyTextSegments, classifyLoop_text]
      rfl

theorem classifyLoop_ne_nil : ∀ (text cur : Str) (t : TextType), cur ≠ [] →
    ∀ seg ∈ classifyLoop text cur t, seg.Text ≠ [] := by
  intro text
  induction text with
  | nil =>
      intro cur t h seg hseg
      simp only [classifyLoop] at hseg
      rw [if_neg h] at hseg
      have hs : seg = ⟨cur, t⟩ := by simpa using hseg
      subst hs
      exact h
  | cons x xs ih =>
      intro cur t h seg hseg
      simp only [classifyLoop] at hseg
      rw [if_neg h] at hseg
      split at hseg
      · exact ih (cur ++ [x]) t (by simp [h]) seg hseg
      · rcases List.mem_cons.mp (by simpa using hseg) with heq | hmem
        · subst heq
          exact h
        · exact ih [x] (classifyChar x) (by simp) seg hmem

theorem classifyTextSegments_ne_nil (l : Str) :
    ∀ seg ∈ classifyTextSegments l, seg.Text ≠ [] := by
  cases l with
  | nil =>
      intro seg hseg
      simp [classifyTextSegments] at hseg
  | cons x xs =>
      intro seg hseg
      exact classifyLoop_ne_nil xs [x] (classifyChar x) (by simp) seg hseg

theorem classifyLoop_head_kind : ∀ (text cur : Str) (t : TextType), cur ≠ [] →
    ∀ seg, (classifyLoop text cur t).head? = some seg → seg.Kind = t := by
  intro text
  induction text with
  | nil =>
      intro cur t h seg hseg
      simp only [classifyLoop] at hseg
      rw [if_neg h] at hseg
      injection hseg with hs
      subst hs
      rfl
  | cons x xs ih =>
      intro cur t h seg hseg
      simp only [classifyLoop] at hseg
      rw [if_neg h] at hseg
      split at hseg
      · exact ih (cur ++ [x]) t (by simp [h]) seg hseg
      · rw [List.singleton_append, List.head?_cons] at hseg
        injection hseg with hs
        subst hs
        rfl

theorem classifyLoop_chain : ∀ (text cur : Str) (t : TextType), cur ≠ [] →
    List.Chain' (fun s u => s.Kind ≠ u.Kind) (classifyLoop text cur t) := by
  intro text
  induction text with
  | nil =>
      intro cur t h
      simp only [classifyLoop]
      rw [if_neg h]
      exact List.chain'_singleton _
  | cons x xs ih =>
      intro cur t h
      simp only [classifyLoop]
      rw [if_neg h]
      split
      · exact ih (cur ++ [x]) t (by simp [h])
      · rename_i hne
        rw [List.singleton_append, List.chain'_cons']
        refine ⟨?_, ih [x] (classifyChar x) (by simp)⟩
        intro y hy
        have hk := classifyLoop_head_kind xs [x] (classifyChar x) (by simp) y hy
        rw [hk]
        intro hcontra
        exact hne hcontra.symm

theorem classifyTextSegments_chain (l : Str) :
    List.Chain' (fun s u => s.Kind ≠ u.Kind) (classifyTextSegments l) := by
  cases l with
  | nil => simp [classifyTextSegments]
  | cons x xs => exact classifyLoop_chain xs [x] (classifyChar x) (by simp)

theorem parseLineSegments_props : ∀ (n : Nat) (l : Str), l.length ≤ n →
    segmentsText (parseLineSegments l) = removeBoldMarkers l ∧
    (∀ seg ∈ parseLineSegments l, seg.Text ≠ []) ∧
    List.Chain' (fun s u => s.Kind ≠ .HeaderText → u.Kind ≠ .HeaderText → s.Kind ≠ u.Kind)
      (parseLineSegments l) := by
  intro n
  induction n with
  | zero =>
      intro l hl
      have hnil : l = [] := List.length_eq_zero.mp (Nat.le_zero.mp hl)
      subst hnil
      rw [@parseLineSegments_of_none [] rfl, @removeBoldMarkers_of_none [] rfl]
      exact ⟨classifyTextSegments_text [], classifyTextSegments_ne_nil [],
        (classifyTextSegments_chain []).imp (fun _ _ hR _ _ => hR)⟩
  | succ n ih =>
      intro l hl
      cases hfb : findBold l with
      | none =>
          rw [parseLineSegments_of_none hfb, removeBoldMarkers_of_none hfb]
          exact ⟨classifyTextSegments_text l, classifyTextSegments_ne_nil l,
            (classifyTextSegments_chain l).imp (fun _ _ hR _ _ => hR)⟩
      | some x =>
          obtain ⟨b, i, a⟩ := x
          have hlt : a.length < l.length := findBold_length_lt hfb
          have IH := ih a (by omega)
          have hine : i ≠ [] := (findBold_eq_some hfb).2
          rw [parseLineSegments_of_some hfb, removeBoldMarkers_of_some hfb]
          refine ⟨?_, ?_, ?_⟩
          · rw [segmentsText_append, segmentsText_cons, IH.1]
            by_cases hb : b = []
            · rw [if_pos hb, hb]
              simp [segmentsText]
            · rw [if_neg hb, classifyTextSegments_text b]
              simp
          · intro seg hseg
            rcases List.mem_append.mp hseg with h1 | h2
            · by_cases hb : b = []
              · rw [if_pos hb] at h1
                cases h1
              · rw [if_neg hb] at h1
                exact classifyTextSegments_ne_nil b seg h1
            · rcases List.mem_cons.mp h2 with heq | hmem
              · subst heq
                exact hine
              · exact IH.2.1 seg hmem
          · rw [List.chain'_append]
            refine ⟨?_, ?_, ?_⟩
            · by_cases hb : b = []
              · rw [if_pos hb]
                exact List.chain'_nil
              · rw [if_neg hb]
                exact (classifyTextSegments_chain b).imp (fun _ _ hR _ _ => hR)
            · rw [List.chain'_cons']
              refine ⟨?_, IH.2.2⟩
              intro y hy h1 h2
              exact absurd rfl h1
            · intro x hx y hy
              have hyh : (⟨i, .HeaderText⟩ : TextSegment) = y := by simpa using hy
              subst hyh
              intro h1 h2
              exact absurd rfl h2

/-- C10: for every line, concatenating the segment texts in order gives
the line with exactly the recognized emphasis marker pairs removed; every
segment is non-empty; and any two adjacent segments that are both outside
emphasis runs (not HeaderText) have different classifications, i.e. runs
are maximal. -/
theorem C10_segmentation_partition (l : Str) :
    segmentsText (parseLineSegments l) = removeBoldMarkers l ∧
    (∀ seg ∈ parseLineSegments l, seg.Text ≠ []) ∧
    List.Chain' (fun s u => s.Kind ≠ .HeaderText → u.Kind ≠ .HeaderText → s.Kind ≠ u.Kind)
      (parseLineSegments l) :=
  parseLineSegments_props l.length l (Nat.le_refl _)

/-- C10 witness: the property instantiated at the line "**B**x│". -/
theorem C10_segmentation_partition_witness :
    segmentsText (parseLineSegments "**B**x│".toList) =
        removeBoldMarkers "**B**x│".toList ∧
    (∀ seg ∈ parseLineSegments "**B**x│".toList, seg.Text ≠ []) ∧
    List.Chain' (fun s u => s.Kind ≠ .HeaderText → u.Kind ≠ .HeaderText → s.Kind ≠ u.Kind)
      (parseLineSegments "**B**x│".toList) :=
  C10_segmentation_partition "**B**x│".toList

end Tablemaker
